import Mathlib

/-!
Verification of the interactive streaming-cache and capture-job controller.

The development shallowly embeds:
* the clock-merging reader and sink of the streaming cache (the cache
  implementation itself is not part of the sources at hand, only its tests;
  those components are modelled from the spec and cross-checked against the
  recorded expectations of `streaming_cache_test.py`);
* the `BackgroundCachingJob` controller and the source-signature tracker of
  `background_caching_job.py`;
* the element materialization `_to_element_list` of `pcoll_visualization.py`.

Timestamps and durations are integer microseconds throughout, mirroring the
source.
-/

/-- The three-variant event union of the cache (§3 of the design): element
batches, per-tag watermark advances, and shared-clock advances. Encoded
payloads are modelled as strings, event times as integers (micros), and
processing-time durations as naturals (micros). -/
inductive Event where
  | addElements (elements : List (String × Int)) (tag : String)
  | advanceWatermark (newWatermark : Int) (tag : String)
  | advanceProcessingTime (advanceDuration : Nat)
  deriving DecidableEq

/-- Whether an event is a shared-clock advance. -/
def isProcessingTimeEvent : Event → Bool
  | Event.advanceProcessingTime _ => true
  | _ => false

/-- Whether an event is an element batch. -/
def isElementEvent : Event → Bool
  | Event.addElements _ _ => true
  | _ => false

/-- Modelled from the spec (§4.3, missing `streaming_cache.py`): reconstruct
each recorded event's processing-time position by accumulating the source's
own `AdvanceProcessingTime` deltas; the clock-advance records themselves are
consumed into the accumulator and are not part of the positioned stream. -/
def annotate : Nat → List Event → List (Nat × Event)
  | _, [] => []
  | clock, Event.advanceProcessingTime d :: rest => annotate (clock + d) rest
  | clock, e :: rest => (clock, e) :: annotate clock rest

/-- Modelled from the spec (§4.3): select, among the heads of the given
group streams, the one with the smallest processing-time position, ties
broken by the order the groups were listed. Returns the chosen positioned
event together with the group streams with that head removed (empty groups
stay in place, preserving the listed order). -/
def selectMin :
    List (List (Nat × Event)) → Option ((Nat × Event) × List (List (Nat × Event)))
  | [] => none
  | [] :: gs =>
    match selectMin gs with
    | none => none
    | some (c, gs') => some (c, [] :: gs')
  | (h :: t) :: gs =>
    match selectMin gs with
    | none => some (h, t :: gs)
    | some (c, gs') =>
      if h.1 ≤ c.1 then some (h, t :: gs) else some (c, (h :: t) :: gs')

/-- Total number of positioned events remaining across all group streams. -/
def totalLen (gs : List (List (Nat × Event))) : Nat :=
  (gs.map List.length).sum

/-- Modelled from the spec (§4.3): the k-way merge loop. At each step the
minimal-position head is chosen; if the shared clock must move forward to
reach it, a single coalesced `AdvanceProcessingTime` carrying the delta is
emitted immediately before it. The first argument is recursion fuel; one
recorded event is consumed per step, so `totalLen` fuel suffices. -/
def mergeAux : Nat → Nat → List (List (Nat × Event)) → List Event
  | 0, _, _ => []
  | fuel + 1, clock, gs =>
    match selectMin gs with
    | none => []
    | some (c, gs') =>
      (if clock < c.1 then [Event.advanceProcessingTime (c.1 - clock)] else [])
        ++ c.2 :: mergeAux fuel (max clock c.1) gs'

/-- Modelled from the spec (§4.3, missing `streaming_cache.py`):
`read_multiple` merges the given per-group event logs into one globally
ordered event stream, the shared simulated clock starting at zero. -/
def readMultiple (groupLogs : List (List Event)) : List Event :=
  mergeAux (totalLen (groupLogs.map (annotate 0))) 0 (groupLogs.map (annotate 0))

/-- Modelled from the spec (§4.3): `read(tag)` is the single-group
convenience form of `read_multiple`. -/
def readSingle (log : List Event) : List Event :=
  readMultiple [log]

/-- Recorded log of the `letters` tag in `test_multiple_readers`. -/
def lettersLog : List Event :=
  [ Event.advanceProcessingTime 1000000,
    Event.advanceWatermark 0 "letters",
    Event.addElements [("a", 0)] "letters",
    Event.advanceProcessingTime 10000000,
    Event.advanceWatermark 10000000 "letters",
    Event.addElements [("b", 10000000)] "letters" ]

/-- Recorded log of the `numbers` tag in `test_multiple_readers`. -/
def numbersLog : List Event :=
  [ Event.advanceProcessingTime 2000000,
    Event.addElements [("1", 0)] "numbers",
    Event.advanceProcessingTime 1000000,
    Event.addElements [("2", 0)] "numbers",
    Event.advanceProcessingTime 1000000,
    Event.addElements [("2", 0)] "numbers" ]

/-- Recorded log of the `late` tag in `test_multiple_readers`. -/
def lateLog : List Event :=
  [ Event.advanceProcessingTime 101000000,
    Event.addElements [("late", 0)] "late" ]

/-- The merge model reproduces, event for event, the expected output of
`StreamingCacheTest.test_multiple_readers`, grounding the spec-modelled
reader against the recorded test expectations. -/
theorem merge_matches_multiple_readers_test :
    readMultiple [lettersLog, numbersLog, lateLog] =
      [ Event.advanceProcessingTime 1000000,
        Event.advanceWatermark 0 "letters",
        Event.addElements [("a", 0)] "letters",
        Event.advanceProcessingTime 1000000,
        Event.addElements [("1", 0)] "numbers",
        Event.advanceProcessingTime 1000000,
        Event.addElements [("2", 0)] "numbers",
        Event.advanceProcessingTime 1000000,
        Event.addElements [("2", 0)] "numbers",
        Event.advanceProcessingTime 7000000,
        Event.advanceWatermark 10000000 "letters",
        Event.addElements [("b", 10000000)] "letters",
        Event.advanceProcessingTime 90000000,
        Event.addElements [("late", 0)] "late" ] := by
  decide

/-- State of the sink while observing the live tagged event stream: the
current and last-recorded shared processing time (micros), and the current
and last-recorded per-tag watermarks (micros). -/
structure SinkState where
  currentProcessingTime : Nat
  lastProcessingTime : Nat
  currentWatermark : String → Option Int
  lastWatermark : String → Option Int

/-- Sink state before any capture activity. -/
def initSinkState : SinkState :=
  ⟨0, 0, fun _ => none, fun _ => none⟩

/-- One instruction of the captured live stream, with times in seconds as in
the capture scenario of the tests; element entries carry (payload,
event-time seconds). -/
inductive CaptureOp where
  | advanceWatermarkTo (watermarkSecs : Int) (tag : String)
  | advanceProcessingTime (durationSecs : Nat)
  | addElements (elements : List (String × Int)) (tag : String)

/-- Modelled from the spec (§4.2, missing `streaming_cache.py`): the sink
tracks watermark and processing-time transitions, and on each incoming
element batch for a sunk tag first records the not-yet-recorded clock
advance and watermark transition, then records the `AddElements` batch.
Seconds are converted to integer microseconds on recording (§6). -/
def sinkStep (tags : List String) (st : SinkState) (op : CaptureOp) :
    SinkState × List Event :=
  match op with
  | CaptureOp.advanceWatermarkTo w tag =>
    ({ st with
        currentWatermark := fun t =>
          if t = tag then some (w * 1000000) else st.currentWatermark t },
      [])
  | CaptureOp.advanceProcessingTime d =>
    ({ st with currentProcessingTime := st.currentProcessingTime + d * 1000000 },
      [])
  | CaptureOp.addElements els tag =>
    if tag ∈ tags then
      let ptEvents :=
        if st.currentProcessingTime ≠ st.lastProcessingTime then
          [Event.advanceProcessingTime
            (st.currentProcessingTime - st.lastProcessingTime)]
        else []
      let wmEvents :=
        match st.currentWatermark tag with
        | some w =>
          if st.lastWatermark tag ≠ some w then [Event.advanceWatermark w tag]
          else []
        | none => []
      let st' :=
        { st with
            lastProcessingTime := st.currentProcessingTime,
            lastWatermark := fun t =>
              if t = tag then st.currentWatermark tag else st.lastWatermark t }
      (st',
        ptEvents ++ wmEvents ++
          [Event.addElements (els.map fun e => (e.1, e.2 * 1000000)) tag])
    else (st, [])

/-- Modelled from the spec (§4.2): run the sink over a capture sequence and
collect the per-tag log it records. -/
def sinkRecord (tags : List String) (ops : List CaptureOp) : List Event :=
  (ops.foldl
    (fun (acc : SinkState × List Event) op =>
      let next := sinkStep tags acc.1 op
      (next.1, acc.2 ++ next.2))
    (initSinkState, [])).2

/-- The capture sequence of `StreamingCacheTest.test_read_and_write`: a
watermark advance to 0, a 5 second processing-time advance, elements
[a, b, c] at event time 0, a watermark advance to 10, a 1 second
processing-time advance, and elements [1, 2, 3] at event time 15 — all on
tag `records`. -/
def recordsCaptureOps : List CaptureOp :=
  [ CaptureOp.advanceWatermarkTo 0 "records",
    CaptureOp.advanceProcessingTime 5,
    CaptureOp.addElements [("a", 0), ("b", 0), ("c", 0)] "records",
    CaptureOp.advanceWatermarkTo 10 "records",
    CaptureOp.advanceProcessingTime 1,
    CaptureOp.addElements [("1", 15), ("2", 15), ("3", 15)] "records" ]

/-- C2: sinking the capture sequence of `test_read_and_write` for the single
tag `records` and reading that tag back yields exactly the six events
`AdvanceProcessingTime(5000000)`, `AdvanceWatermark(0)`,
`AddElements([a,b,c] at 0)`, `AdvanceProcessingTime(1000000)`,
`AdvanceWatermark(10000000)`, `AddElements([1,2,3] at 15000000)`, in this
order, with timestamps in integer microseconds. -/
theorem sink_read_round_trip :
    readSingle (sinkRecord ["records"] recordsCaptureOps) =
      [ Event.advanceProcessingTime 5000000,
        Event.advanceWatermark 0 "records",
        Event.addElements [("a", 0), ("b", 0), ("c", 0)] "records",
        Event.advanceProcessingTime 1000000,
        Event.advanceWatermark 10000000 "records",
        Event.addElements
          [("1", 15000000), ("2", 15000000), ("3", 15000000)] "records" ] := by
  decide

/-- Modelled from the spec (§4.5/§6, `PipelineState` of the execution
engine is not among the sources at hand): the controller-relevant job
states, with `DONE` and `CANCELLED` terminal. -/
inductive PipelineState where
  | RUNNING
  | DONE
  | CANCELLING
  | CANCELLED
  deriving DecidableEq

/-- Modelled from the spec (§4.5): terminal job states. -/
def PipelineState.is_terminal : PipelineState → Bool
  | PipelineState.DONE => true
  | PipelineState.CANCELLED => true
  | _ => false

/-- The observable state of a `BackgroundCachingJob`: the underlying
pipeline result's state, the `_timer_triggered` and
`_condition_checker_triggered` flags, and whether the duration timer is
still pending (`_timer.is_alive()`). -/
structure BackgroundCachingJob where
  state : PipelineState
  timer_triggered : Bool
  condition_checker_triggered : Bool
  timer_alive : Bool
  deriving DecidableEq

/-- The engine's reaction to a cancellation request: `ok` when supported,
`error` standing for `NotImplementedError` when not. -/
def engineCancel (supportsCancel : Bool) : Except Unit Unit :=
  if supportsCancel then Except.ok () else Except.error ()

/-- Embedding of `BackgroundCachingJob._cancel`: mark the timer as triggered, then, when
the job is not already terminal, request cancellation from the execution
engine, swallowing `NotImplementedError`. The returned boolean records
whether the engine cancellation was requested. -/
def BackgroundCachingJob.cancelInternal (supportsCancel : Bool)
    (j : BackgroundCachingJob) : BackgroundCachingJob × Bool :=
  let j' := { j with timer_triggered := true }
  if PipelineState.is_terminal j.state then (j', false)
  else
    match engineCancel supportsCancel with
    | Except.ok _ => (j', true)
    | Except.error _ => (j', true)

/-- Embedding of `BackgroundCachingJob.cancel`: the external invalidation path. Runs
`_cancel`, then re-marks the timer as not triggered and cancels the
duration timer if it is still alive. -/
def BackgroundCachingJob.cancel (supportsCancel : Bool)
    (j : BackgroundCachingJob) : BackgroundCachingJob × Bool :=
  let r := BackgroundCachingJob.cancelInternal supportsCancel j
  ({ r.1 with timer_triggered := false, timer_alive := false }, r.2)

/-- Embedding of `BackgroundCachingJob.is_done`. -/
def BackgroundCachingJob.is_done (j : BackgroundCachingJob) : Bool :=
  (j.state == PipelineState.DONE)
    || ((j.timer_triggered || j.condition_checker_triggered)
        && (j.state == PipelineState.CANCELLED
            || j.state == PipelineState.CANCELLING))

/-- Embedding of `BackgroundCachingJob.is_running`. -/
def BackgroundCachingJob.is_running (j : BackgroundCachingJob) : Bool :=
  j.state == PipelineState.RUNNING

/-- The operations that can affect a capture job after construction: the
duration timer firing (`threading.Timer` invoking `_cancel`), the
size-limit checker firing (`_should_end_condition_checker` setting its flag
and invoking `cancel`), an explicit external `cancel()`, and the engine
asynchronously moving the job through its cancellation or completion
states. -/
inductive ControllerOp where
  | timerFire
  | checkerFire
  | externalCancel
  | engineRunToCancelling
  | engineCancellingToCancelled
  | engineRunToDone

/-- One controller/engine operation applied to a job. -/
def stepOp (j : BackgroundCachingJob) : ControllerOp → BackgroundCachingJob
  | ControllerOp.timerFire =>
    if j.timer_alive then
      { (BackgroundCachingJob.cancelInternal true j).1 with timer_alive := false }
    else j
  | ControllerOp.checkerFire =>
    (BackgroundCachingJob.cancel true
      { j with condition_checker_triggered := true }).1
  | ControllerOp.externalCancel => (BackgroundCachingJob.cancel true j).1
  | ControllerOp.engineRunToCancelling =>
    if j.state = PipelineState.RUNNING then { j with state := PipelineState.CANCELLING }
    else j
  | ControllerOp.engineCancellingToCancelled =>
    if j.state = PipelineState.CANCELLING then { j with state := PipelineState.CANCELLED }
    else j
  | ControllerOp.engineRunToDone =>
    if j.state = PipelineState.RUNNING then { j with state := PipelineState.DONE }
    else j

/-- A sequence of controller/engine operations applied in order. -/
def runOps (j : BackgroundCachingJob) (ops : List ControllerOp) :
    BackgroundCachingJob :=
  ops.foldl stepOp j

/-- C3: `is_done()` holds exactly when the job state is `DONE`, or the
state is `CANCELLED` or `CANCELLING` and the cancellation was attributed to
the duration timer or to the size-limit checker; with both flags clear a
cancelling/cancelled job is not done. -/
theorem is_done_characterization (j : BackgroundCachingJob) :
    BackgroundCachingJob.is_done j = true ↔
      (j.state = PipelineState.DONE
        ∨ ((j.state = PipelineState.CANCELLED ∨ j.state = PipelineState.CANCELLING)
            ∧ (j.timer_triggered = true ∨ j.condition_checker_triggered = true))) := by
  cases j with
  | mk s t c a =>
    cases s <;> cases t <;> cases c <;>
      simp [BackgroundCachingJob.is_done]

/-- Once the size-limit checker has fired and the job is in a
cancelling/cancelled state, no single controller or engine operation clears
the checker flag or moves the job out of the cancelling/cancelled states. -/
theorem stepOp_preserves_checker_cancelled (j : BackgroundCachingJob)
    (op : ControllerOp)
    (h1 : j.condition_checker_triggered = true)
    (h2 : j.state = PipelineState.CANCELLING ∨ j.state = PipelineState.CANCELLED) :
    (stepOp j op).condition_checker_triggered = true ∧
      ((stepOp j op).state = PipelineState.CANCELLING
        ∨ (stepOp j op).state = PipelineState.CANCELLED) := by
  cases op <;> rcases h2 with h2 | h2 <;>
    simp [stepOp, BackgroundCachingJob.cancel, BackgroundCachingJob.cancelInternal,
      engineCancel, PipelineState.is_terminal, h1, h2] <;>
    split <;>
    simp [h1, h2]

/-- The invariant of `stepOp_preserves_checker_cancelled` is stable under
any sequence of controller/engine operations. -/
theorem runOps_preserves_checker_cancelled (ops : List ControllerOp)
    (j : BackgroundCachingJob)
    (h1 : j.condition_checker_triggered = true)
    (h2 : j.state = PipelineState.CANCELLING ∨ j.state = PipelineState.CANCELLED) :
    (runOps j ops).condition_checker_triggered = true ∧
      ((runOps j ops).state = PipelineState.CANCELLING
        ∨ (runOps j ops).state = PipelineState.CANCELLED) := by
  induction ops generalizing j with
  | nil => exact ⟨h1, h2⟩
  | cons op ops ih =>
    have h := stepOp_preserves_checker_cancelled j op h1 h2
    exact ih (stepOp j op) h.1 h.2

/-- C4: if the size-limit checker fired and the job has reached a
cancelling/cancelled state, `is_done()` is true and stays true under every
subsequent sequence of operations (external `cancel()` included); and a
running job cancelled externally before either watcher fired reports
`is_done()` false while merely cancelling. -/
theorem checker_triggered_done_is_stable (j j2 : BackgroundCachingJob)
    (ops : List ControllerOp) (sup : Bool)
    (h1 : j.condition_checker_triggered = true)
    (h2 : j.state = PipelineState.CANCELLING ∨ j.state = PipelineState.CANCELLED)
    (h3 : j2.condition_checker_triggered = false)
    (h4 : j2.state = PipelineState.RUNNING) :
    (BackgroundCachingJob.is_done j = true
      ∧ BackgroundCachingJob.is_done (runOps j ops) = true)
    ∧ BackgroundCachingJob.is_done
        (stepOp (BackgroundCachingJob.cancel sup j2).1
          ControllerOp.engineRunToCancelling) = false := by
  refine ⟨⟨?_, ?_⟩, ?_⟩
  · rcases h2 with h2 | h2 <;> simp [BackgroundCachingJob.is_done, h1, h2]
  · have h := runOps_preserves_checker_cancelled ops j h1 h2
    rcases h.2 with h2' | h2' <;> simp [BackgroundCachingJob.is_done, h.1, h2']
  · cases j2 with
    | mk s t c a =>
      simp only at h3 h4
      subst h3 h4
      simp [stepOp, BackgroundCachingJob.cancel, BackgroundCachingJob.cancelInternal,
        engineCancel, PipelineState.is_terminal, BackgroundCachingJob.is_done]
      cases sup <;> simp

/-- Concrete check of `checker_triggered_done_is_stable`: a cancelling job
with the checker flag set stays done across an external cancel followed by
the engine completing the cancellation, and an externally cancelled running
job is not done once merely cancelling. -/
theorem checker_triggered_done_is_stable_check :
    (BackgroundCachingJob.is_done
        ⟨PipelineState.CANCELLING, false, true, false⟩ = true
      ∧ BackgroundCachingJob.is_done
          (runOps ⟨PipelineState.CANCELLING, false, true, false⟩
            [ControllerOp.externalCancel,
              ControllerOp.engineCancellingToCancelled,
              ControllerOp.timerFire]) = true)
    ∧ BackgroundCachingJob.is_done
        (stepOp
          (BackgroundCachingJob.cancel true
            ⟨PipelineState.RUNNING, false, false, true⟩).1
          ControllerOp.engineRunToCancelling) = false :=
  checker_triggered_done_is_stable
    ⟨PipelineState.CANCELLING, false, true, false⟩
    ⟨PipelineState.RUNNING, false, false, true⟩
    [ControllerOp.externalCancel, ControllerOp.engineCancellingToCancelled,
      ControllerOp.timerFire]
    true rfl (Or.inl rfl) rfl rfl

/-- C8 counterexample: for a job whose underlying state is already terminal
(here `DONE`), the external `cancel()` does NOT request cancellation from
the execution engine — the request indicator returned by `cancel` is false
even though the engine supports cancellation, refuting the claim that the
engine cancellation is always requested for every job state. -/
theorem cancel_not_always_requested :
    (BackgroundCachingJob.cancel true
      ⟨PipelineState.DONE, false, false, true⟩).2 = false := by
  decide

/-- C8 (amended): the external `cancel()` requests engine cancellation
exactly when the job is not already in a terminal state, swallows a
`NotImplementedError` from the engine (the outcome does not depend on
whether the engine supports cancellation), leaves the job state and checker
flag untouched, resets the triggered-by-timer flag to false, and cancels
the duration timer. -/
theorem cancel_resets_timer_and_requests_when_nonterminal (sup : Bool)
    (j : BackgroundCachingJob) :
    (BackgroundCachingJob.cancel sup j).2 = !(PipelineState.is_terminal j.state)
      ∧ (BackgroundCachingJob.cancel sup j).1.timer_triggered = false
      ∧ (BackgroundCachingJob.cancel sup j).1.timer_alive = false
      ∧ (BackgroundCachingJob.cancel sup j).1.state = j.state
      ∧ (BackgroundCachingJob.cancel sup j).1.condition_checker_triggered
          = j.condition_checker_triggered
      ∧ BackgroundCachingJob.cancel sup j = BackgroundCachingJob.cancel true j := by
  cases sup <;> cases hs : PipelineState.is_terminal j.state <;>
    simp [BackgroundCachingJob.cancel, BackgroundCachingJob.cancelInternal,
      engineCancel, hs]

/-- The environment state that `is_source_to_cache_changed` reads and
mutates: the recorded source signature of the pipeline (the empty set for a
first-seen pipeline) and the set of cached entries of the environment
(cleared wholesale by `cleanup`). -/
structure InteractiveEnv where
  recorded_signature : Finset String
  cache_entries : Finset String
  deriving DecidableEq

/-- Embedding of `is_source_to_cache_changed`: the newly extracted signature is compared
by subset against the recorded one; on a change, when
`update_cached_source_signature` is set, all cached data is cleared and the
new signature recorded. Returns the change verdict and the updated
environment. -/
def is_source_to_cache_changed (current : Finset String)
    (update_cached_source_signature : Bool) (env : InteractiveEnv) :
    Bool × InteractiveEnv :=
  let is_changed : Bool := !(decide (current ⊆ env.recorded_signature))
  if is_changed && update_cached_source_signature then
    (is_changed, { recorded_signature := current, cache_entries := ∅ })
  else (is_changed, env)

/-- Embedding of `is_background_caching_job_needed`: the change check runs
unconditionally before the conjunction is evaluated, so its side effect on
the environment happens on every call. -/
def is_background_caching_job_needed (has_source : Bool)
    (job : Option BackgroundCachingJob) (current : Finset String)
    (env : InteractiveEnv) : Bool × InteractiveEnv :=
  let r := is_source_to_cache_changed current true env
  (has_source
      && ((match job with
            | none => true
            | some jb =>
              !(BackgroundCachingJob.is_done jb || BackgroundCachingJob.is_running jb))
          || r.1),
    r.2)

/-- The change verdict of `is_source_to_cache_changed` is the negated
subset test, whatever the mutation flag. -/
theorem signature_changed_fst (current : Finset String) (update : Bool)
    (env : InteractiveEnv) :
    (is_source_to_cache_changed current update env).1 =
      !(decide (current ⊆ env.recorded_signature)) := by
  cases h : decide (current ⊆ env.recorded_signature) <;>
    cases update <;>
    simp [is_source_to_cache_changed, h]

/-- C5: the signature change check reports a change exactly when the newly
extracted signature is not a subset of the recorded one (for a first-seen
pipeline the recorded signature is the empty set, an instance of this
statement); in particular a new signature that only removes sources reports
unchanged, while one containing an unrecorded source reports changed. -/
theorem signature_changed_iff_not_subset (current : Finset String)
    (update : Bool) (env : InteractiveEnv) :
    (is_source_to_cache_changed current update env).1 = true ↔
      ¬ current ⊆ env.recorded_signature := by
  simp [signature_changed_fst]

/-- C6: on a reported change with mutation enabled the environment comes
out with all cached data cleared and the new signature recorded as current;
with no change reported, or with the non-mutating variant, the environment
is left entirely unchanged. -/
theorem signature_change_side_effects (current : Finset String)
    (env : InteractiveEnv) :
    (¬ current ⊆ env.recorded_signature →
      (is_source_to_cache_changed current true env).2 =
        { recorded_signature := current, cache_entries := ∅ })
    ∧ (current ⊆ env.recorded_signature →
      (is_source_to_cache_changed current true env).2 = env)
    ∧ (is_source_to_cache_changed current false env).2 = env := by
  refine ⟨fun h => ?_, fun h => ?_, ?_⟩ <;>
    first
      | simp [is_source_to_cache_changed, h]
      | simp [is_source_to_cache_changed]

/-- Concrete check of `signature_change_side_effects`: adding the source
`s2` to a recorded signature of just `s1` clears the cache and records the
new signature, while dropping to the empty signature leaves the recorded
signature and the cached data untouched. -/
theorem signature_change_side_effects_check :
    (is_source_to_cache_changed {"s1", "s2"} true
        ⟨{"s1"}, {"tag0"}⟩).2 =
      { recorded_signature := {"s1", "s2"}, cache_entries := ∅ }
    ∧ (is_source_to_cache_changed (∅ : Finset String) true
        ⟨{"s1"}, {"tag0"}⟩).2 = ⟨{"s1"}, {"tag0"}⟩ :=
  ⟨(signature_change_side_effects {"s1", "s2"} ⟨{"s1"}, {"tag0"}⟩).1 (by decide),
    (signature_change_side_effects ∅ ⟨{"s1"}, {"tag0"}⟩).2.1 (by decide)⟩

/-- C7: a background caching job is needed exactly when the pipeline has
capturable sources and (no job is tracked, or the tracked job is neither
done nor running, or the signature check reports a change); moreover the
signature-change side effect happens on every call — whenever the new
signature is not a subset of the recorded one, the returned environment has
the new signature recorded (even with `has_source = false`), and an
immediate re-check of the same signature against the returned environment
reports no change. -/
theorem caching_job_needed_iff (has_source : Bool)
    (job : Option BackgroundCachingJob) (current : Finset String)
    (env : InteractiveEnv) :
    ((is_background_caching_job_needed has_source job current env).1 = true ↔
      (has_source = true
        ∧ (job = none
          ∨ (∃ jb, job = some jb
              ∧ BackgroundCachingJob.is_done jb = false
              ∧ BackgroundCachingJob.is_running jb = false)
          ∨ ¬ current ⊆ env.recorded_signature)))
    ∧ (is_background_caching_job_needed has_source job current env).2 =
        (is_source_to_cache_changed current true env).2
    ∧ (¬ current ⊆ env.recorded_signature →
        (is_background_caching_job_needed has_source job current env).2.recorded_signature
            = current
          ∧ (is_source_to_cache_changed current true
              (is_background_caching_job_needed has_source job current env).2).1
            = false) := by
  refine ⟨?_, ?_, fun h => ?_⟩
  · by_cases h : current ⊆ env.recorded_signature <;>
      cases job <;>
      simp [is_background_caching_job_needed, is_source_to_cache_changed, h,
        Bool.or_eq_true, Bool.and_eq_true, not_or]
  · cases job <;> simp [is_background_caching_job_needed]
  · constructor
    · simp [is_background_caching_job_needed, is_source_to_cache_changed, h]
    · simp [is_background_caching_job_needed, is_source_to_cache_changed, h]

/-- Concrete check of `caching_job_needed_iff`: with no capturable sources
but a changed signature, the call still records the new signature, and the
immediate re-check reports no change. -/
theorem caching_job_needed_iff_check :
    (is_background_caching_job_needed false none {"s1"}
        ⟨(∅ : Finset String), {"tag0"}⟩).2.recorded_signature = {"s1"}
      ∧ (is_source_to_cache_changed {"s1"} true
          (is_background_caching_job_needed false none {"s1"}
            ⟨(∅ : Finset String), {"tag0"}⟩).2).1 = false :=
  (caching_job_needed_iff false none {"s1"} ⟨∅, {"tag0"}⟩).2.2 (by decide)

/-- Decoding of one `AddElements` batch in `_to_element_list`: elements are
decoded in order inside a single `for` loop; a decoder failure raises out
of the loop, so the elements decoded before the failure are kept and the
rest of the batch is abandoned. -/
def decodeBatch {α : Type} (dec : String → Option α) :
    List (String × Int) → List α
  | [] => []
  | (s, _) :: rest =>
    match dec s with
    | some v => v :: decodeBatch dec rest
    | none => []

/-- The per-event step of `_to_element_list`: watermark and
processing-time events are skipped, element batches are decoded. -/
def processEvent {α : Type} (dec : String → Option α) : Event → List α
  | Event.addElements els _ => decodeBatch dec els
  | _ => []

/-- Embedding of `_to_element_list` over a cached event stream: one `while` iteration
per event, each iteration's failure caught and logged before the read
continues with the next event. -/
def toElementList {α : Type} (dec : String → Option α) : List Event → List α
  | [] => []
  | e :: rest => processEvent dec e ++ toElementList dec rest

/-- Embedding of `_to_element_list` including the cache lookup: a nonexistent cache key
yields the empty iterator, hence an empty materialization. -/
def toElementListForKey {α : Type} (dec : String → Option α)
    (keyExists : Bool) (events : List Event) : List α :=
  if keyExists then toElementList dec events else []

/-- Modelled from the claim's wording (the spec's per-element error
handling): a decoder failure skips only the offending element and decoding
resumes with the next element of the same batch. -/
def decodeBatchPerElement {α : Type} (dec : String → Option α) :
    List (String × Int) → List α
  | [] => []
  | (s, _) :: rest =>
    match dec s with
    | some v => v :: decodeBatchPerElement dec rest
    | none => decodeBatchPerElement dec rest

/-- Modelled from the claim's wording: `_to_element_list` as it would
behave were decode errors caught per element. -/
def toElementListPerElement {α : Type} (dec : String → Option α) :
    List Event → List α
  | [] => []
  | Event.addElements els _ :: rest =>
    decodeBatchPerElement dec els ++ toElementListPerElement dec rest
  | _ :: rest => toElementListPerElement dec rest

/-- A decoder failing exactly on the payload `bad`. -/
def badDecoder : String → Option String :=
  fun s => if s = "bad" then none else some s

/-- A single-event stream whose batch holds an undecodable element followed
by a decodable one. -/
def mixedBatchEvents : List Event :=
  [Event.addElements [("bad", 0), ("ok", 0)] "t"]

/-- C9 counterexample: on a batch [bad, ok] whose first element fails to
decode, the code returns no element at all — the decodable element `ok`
sitting after the failure in the same batch is lost — whereas per-element
error handling would return it; so the offending element is not the only
element skipped. -/
theorem per_element_error_handling_refuted :
    toElementList badDecoder mixedBatchEvents = ([] : List String)
      ∧ toElementListPerElement badDecoder mixedBatchEvents = ["ok"]
      ∧ toElementList badDecoder mixedBatchEvents
          ≠ toElementListPerElement badDecoder mixedBatchEvents := by
  refine ⟨rfl, rfl, ?_⟩
  decide

/-- C9 (amended): a decode error is caught per event rather than per
element: within the failing `AddElements` batch the elements decoded before
the failure are kept, the offending element and the remainder of its batch
are skipped, and the read continues with the subsequent events instead of
aborting the whole materialization. -/
theorem decode_error_skips_batch_remainder {α : Type}
    (dec : String → Option α) (good : List (String × Int))
    (bad : String × Int) (rest : List (String × Int)) (tag : String)
    (es : List Event)
    (hgood : ∀ x ∈ good, (dec x.1).isSome)
    (hbad : dec bad.1 = none) :
    toElementList dec (Event.addElements (good ++ bad :: rest) tag :: es) =
      good.filterMap (fun x => dec x.1) ++ toElementList dec es := by
  have hbatch : ∀ g : List (String × Int), (∀ x ∈ g, (dec x.1).isSome) →
      decodeBatch dec (g ++ bad :: rest) = g.filterMap (fun x => dec x.1) := by
    intro g
    induction g with
    | nil =>
      intro _
      simp [decodeBatch, hbad]
    | cons x g ih =>
      intro hx
      have hx1 : (dec x.1).isSome := hx x (List.mem_cons_self x g)
      rcases Option.isSome_iff_exists.mp hx1 with ⟨v, hv⟩
      have := ih (fun y hy => hx y (List.mem_cons_of_mem x hy))
      simp [decodeBatch, hv, List.filterMap_cons, this]
  simp [toElementList, processEvent, hbatch good hgood]

/-- Concrete check of `decode_error_skips_batch_remainder`: an event whose
batch is [ok, bad, ok2] materializes only [ok], and the element of the next
event is still returned. -/
theorem decode_error_skips_batch_remainder_check :
    toElementList badDecoder
        (Event.addElements ([("ok", 0)] ++ ("bad", 0) :: [("ok2", 0)]) "t"
          :: [Event.addElements [("z", 1)] "u"]) =
      List.filterMap (fun x => badDecoder x.1) [("ok", 0)]
        ++ toElementList badDecoder [Event.addElements [("z", 1)] "u"] :=
  decode_error_skips_batch_remainder badDecoder [("ok", 0)] ("bad", 0)
    [("ok2", 0)] "t" [Event.addElements [("z", 1)] "u"]
    (by decide) (by decide)

/-- Every value produced from one batch arises as the successful decoding
of one of the batch's encoded elements. -/
theorem decodeBatch_mem {α : Type} (dec : String → Option α)
    (els : List (String × Int)) (v : α) (hv : v ∈ decodeBatch dec els) :
    ∃ x ∈ els, dec x.1 = some v := by
  induction els with
  | nil => simp [decodeBatch] at hv
  | cons x rest ih =>
    rcases x with ⟨s, t⟩
    cases hd : dec s with
    | none => simp [decodeBatch, hd] at hv
    | some w =>
      rw [decodeBatch, hd] at hv
      rcases List.mem_cons.mp hv with h | h
      · exact ⟨(s, t), List.mem_cons_self _ _, by simp [hd, h]⟩
      · rcases ih h with ⟨y, hy, hdy⟩
        exact ⟨y, List.mem_cons_of_mem _ hy, hdy⟩

/-- C10: the materialization returns only decoded payloads of
`AddElements` events — dropping all watermark and processing-time events
from the stream leaves the result unchanged, and every returned value is
the successful decoding of an encoded element of some `AddElements` event
of the stream — and a nonexistent cache key yields the empty list. -/
theorem element_materialization_only_elements (α : Type)
    (dec : String → Option α) (events : List Event) :
    toElementList dec (events.filter isElementEvent) = toElementList dec events
      ∧ toElementListForKey dec false events = []
      ∧ ∀ v ∈ toElementList dec events, ∃ els tag,
          Event.addElements els tag ∈ events ∧ ∃ x ∈ els, dec x.1 = some v := by
  refine ⟨?_, rfl, ?_⟩
  · induction events with
    | nil => rfl
    | cons e rest ih =>
      cases e with
      | addElements els tag => simp [toElementList, isElementEvent, ih]
      | advanceWatermark w tag =>
        simpa [toElementList, isElementEvent, processEvent] using ih
      | advanceProcessingTime d =>
        simpa [toElementList, isElementEvent, processEvent] using ih
  · induction events with
    | nil => intro v hv; simp [toElementList] at hv
    | cons e rest ih =>
      intro v hv
      rw [toElementList] at hv
      rcases List.mem_append.mp hv with h | h
      · cases e with
        | addElements els tag =>
          rcases decodeBatch_mem dec els v h with ⟨x, hx, hdx⟩
          exact ⟨els, tag, List.mem_cons_self _ _, x, hx, hdx⟩
        | advanceWatermark w tag => simp [processEvent] at h
        | advanceProcessingTime d => simp [processEvent] at h
      · rcases ih v h with ⟨els, tag, hmem, hx⟩
        exact ⟨els, tag, List.mem_cons_of_mem _ hmem, hx⟩

/-- Concrete check of `element_materialization_only_elements`: the value
`x` materialized from a stream holding a clock advance and one element
batch indeed stems from the batch. -/
theorem element_materialization_only_elements_check :
    ∃ els tag,
      Event.addElements els tag
          ∈ [Event.advanceProcessingTime 1, Event.addElements [("x", 0)] "t"]
        ∧ ∃ x ∈ els, (fun s => some s) x.1 = some "x" :=
  (element_materialization_only_elements String (fun s => some s)
      [Event.advanceProcessingTime 1, Event.addElements [("x", 0)] "t"]).2.2
    "x" (by decide)

/-- Reconstructed positions are bounded below by the starting clock. -/
theorem annotate_lb (l : List Event) :
    ∀ (c : Nat), ∀ x ∈ annotate c l, c ≤ x.1 := by
  induction l with
  | nil => intro c x hx; simp [annotate] at hx
  | cons e rest ih =>
    intro c x hx
    cases e with
    | advanceProcessingTime d =>
      simp only [annotate] at hx
      exact le_trans (Nat.le_add_right c d) (ih (c + d) x hx)
    | addElements els tag =>
      simp only [annotate] at hx
      rcases List.mem_cons.mp hx with h | h
      · subst h; exact le_refl c
      · exact ih c x h
    | advanceWatermark w tag =>
      simp only [annotate] at hx
      rcases List.mem_cons.mp hx with h | h
      · subst h; exact le_refl c
      · exact ih c x h

/-- Reconstructed positions are non-decreasing along any log. -/
theorem annotate_pairwise (l : List Event) :
    ∀ c, List.Pairwise (fun a b : Nat × Event => a.1 ≤ b.1) (annotate c l) := by
  induction l with
  | nil => intro c; simp [annotate]
  | cons e rest ih =>
    intro c
    cases e with
    | advanceProcessingTime d => simpa [annotate] using ih (c + d)
    | addElements els tag =>
      simp only [annotate]
      exact List.pairwise_cons.mpr ⟨fun y hy => annotate_lb rest c y hy, ih c⟩
    | advanceWatermark w tag =>
      simp only [annotate]
      exact List.pairwise_cons.mpr ⟨fun y hy => annotate_lb rest c y hy, ih c⟩

/-- The positioned stream holds no clock-advance records: those were
consumed into the position accumulator. -/
theorem annotate_no_pt (l : List Event) :
    ∀ c, ∀ x ∈ annotate c l, isProcessingTimeEvent x.2 = false := by
  induction l with
  | nil => intro c x hx; simp [annotate] at hx
  | cons e rest ih =>
    intro c x hx
    cases e with
    | advanceProcessingTime d =>
      simp only [annotate] at hx
      exact ih (c + d) x hx
    | addElements els tag =>
      simp only [annotate] at hx
      rcases List.mem_cons.mp hx with h | h
      · subst h; rfl
      · exact ih c x h
    | advanceWatermark w tag =>
      simp only [annotate] at hx
      rcases List.mem_cons.mp hx with h | h
      · subst h; rfl
      · exact ih c x h

/-- The selector returns nothing only when every group is exhausted. -/
theorem selectMin_eq_none (gs : List (List (Nat × Event)))
    (h : selectMin gs = none) : ∀ g ∈ gs, g = [] := by
  induction gs with
  | nil => intro g hg; simp at hg
  | cons g0 rest ih =>
    cases g0 with
    | nil =>
      cases hs : selectMin rest with
      | none =>
        intro g hg
        rcases List.mem_cons.mp hg with h1 | h1
        · exact h1
        · exact ih hs g h1
      | some r => simp [selectMin, hs] at h
    | cons hd tl =>
      exfalso
      cases hs : selectMin rest with
      | none => simp [selectMin, hs] at h
      | some r =>
        rcases r with ⟨c1, rest'⟩
        by_cases hle : hd.1 ≤ c1.1 <;> simp [selectMin, hs, hle] at h
/-- Each `selectMin` step consumes exactly one positioned event. -/
theorem selectMin_totalLen (gs : List (List (Nat × Event)))
    (c : Nat × Event) (gs' : List (List (Nat × Event)))
    (h : selectMin gs = some (c, gs')) : totalLen gs = totalLen gs' + 1 := by
  induction gs generalizing c gs' with
  | nil => simp [selectMin] at h
  | cons g0 rest ih =>
    cases g0 with
    | nil =>
      cases hs : selectMin rest with
      | none => simp [selectMin, hs] at h
      | some r =>
        rcases r with ⟨c1, rest'⟩
        have h' : c1 = c ∧ [] :: rest' = gs' := by
          simpa [selectMin, hs] using h
        obtain ⟨rfl, rfl⟩ := h'
        have := ih _ _ hs
        simp [totalLen] at this ⊢
        omega
    | cons hd tl =>
      cases hs : selectMin rest with
      | none =>
        have h' : hd = c ∧ tl :: rest = gs' := by
          simpa [selectMin, hs] using h
        obtain ⟨rfl, rfl⟩ := h'
        simp [totalLen]
        omega
      | some r =>
        rcases r with ⟨c1, rest'⟩
        by_cases hle : hd.1 ≤ c1.1
        · have h' : hd = c ∧ tl :: rest = gs' := by
            simpa [selectMin, hs, hle] using h
          obtain ⟨rfl, rfl⟩ := h'
          simp [totalLen]
          omega
        · have h' : c1 = c ∧ (hd :: tl) :: rest' = gs' := by
            simpa [selectMin, hs, hle] using h
          obtain ⟨rfl, rfl⟩ := h'
          have := ih _ _ hs
          simp [totalLen] at this ⊢
          omega

/-- The multiset of all positioned events across the groups: the chosen
event plus what remains. -/
theorem selectMin_multiset (gs : List (List (Nat × Event)))
    (c : Nat × Event) (gs' : List (List (Nat × Event)))
    (h : selectMin gs = some (c, gs')) :
    (gs.map (fun g => Multiset.ofList g)).sum =
      c ::ₘ (gs'.map (fun g => Multiset.ofList g)).sum := by
  induction gs generalizing c gs' with
  | nil => simp [selectMin] at h
  | cons g0 rest ih =>
    cases g0 with
    | nil =>
      cases hs : selectMin rest with
      | none => simp [selectMin, hs] at h
      | some r =>
        rcases r with ⟨c1, rest'⟩
        have h' : c1 = c ∧ [] :: rest' = gs' := by
          simpa [selectMin, hs] using h
        obtain ⟨rfl, rfl⟩ := h'
        rw [List.map_cons, List.sum_cons, List.map_cons, List.sum_cons,
          Multiset.coe_nil, zero_add, zero_add]
        exact ih _ _ hs
    | cons hd tl =>
      cases hs : selectMin rest with
      | none =>
        have h' : hd = c ∧ tl :: rest = gs' := by
          simpa [selectMin, hs] using h
        obtain ⟨rfl, rfl⟩ := h'
        rw [List.map_cons, List.sum_cons, List.map_cons, List.sum_cons,
          ← Multiset.cons_coe, Multiset.cons_add]
      | some r =>
        rcases r with ⟨c1, rest'⟩
        by_cases hle : hd.1 ≤ c1.1
        · have h' : hd = c ∧ tl :: rest = gs' := by
            simpa [selectMin, hs, hle] using h
          obtain ⟨rfl, rfl⟩ := h'
          rw [List.map_cons, List.sum_cons, List.map_cons, List.sum_cons,
            ← Multiset.cons_coe, Multiset.cons_add]
        · have h' : c1 = c ∧ (hd :: tl) :: rest' = gs' := by
            simpa [selectMin, hs, hle] using h
          obtain ⟨rfl, rfl⟩ := h'
          rw [List.map_cons, List.sum_cons, ih _ _ hs, List.map_cons,
            List.sum_cons, Multiset.add_cons]

/-- Membership in the combined multiset of groups. -/
theorem mem_groups_sum (gs : List (List (Nat × Event))) (x : Nat × Event) :
    x ∈ (gs.map (fun g => Multiset.ofList g)).sum ↔
      ∃ g ∈ gs, x ∈ g := by
  induction gs with
  | nil => simp
  | cons g rest ih => simp [ih]

/-- The chosen event belongs to one of the groups. -/
theorem selectMin_chosen_mem (gs : List (List (Nat × Event)))
    (c : Nat × Event) (gs' : List (List (Nat × Event)))
    (h : selectMin gs = some (c, gs')) : ∃ g ∈ gs, c ∈ g := by
  have hm := selectMin_multiset gs c gs' h
  have : c ∈ (gs.map (fun g => Multiset.ofList g)).sum := by
    rw [hm]; exact Multiset.mem_cons_self c _
  exact (mem_groups_sum gs c).mp this

/-- Events remaining after a `selectMin` step all come from the original
groups. -/
theorem selectMin_mem_of_mem (gs : List (List (Nat × Event)))
    (c : Nat × Event) (gs' : List (List (Nat × Event)))
    (h : selectMin gs = some (c, gs')) (g' : List (Nat × Event))
    (hg' : g' ∈ gs') (x : Nat × Event) (hx : x ∈ g') : ∃ g ∈ gs, x ∈ g := by
  have hm := selectMin_multiset gs c gs' h
  have hx' : x ∈ (gs'.map (fun g => Multiset.ofList g)).sum :=
    (mem_groups_sum gs' x).mpr ⟨g', hg', hx⟩
  have : x ∈ (gs.map (fun g => Multiset.ofList g)).sum := by
    rw [hm]; exact Multiset.mem_cons_of_mem hx'
  exact (mem_groups_sum gs x).mp this

/-- Remaining groups stay sorted by position after a `selectMin` step. -/
theorem selectMin_sorted (gs : List (List (Nat × Event)))
    (c : Nat × Event) (gs' : List (List (Nat × Event)))
    (h : selectMin gs = some (c, gs'))
    (hs : ∀ g ∈ gs, List.Pairwise (fun a b : Nat × Event => a.1 ≤ b.1) g) :
    ∀ g' ∈ gs', List.Pairwise (fun a b : Nat × Event => a.1 ≤ b.1) g' := by
  induction gs generalizing c gs' with
  | nil => simp [selectMin] at h
  | cons g0 rest ih =>
    cases g0 with
    | nil =>
      cases hsel : selectMin rest with
      | none => simp [selectMin, hsel] at h
      | some r =>
        rcases r with ⟨c1, rest'⟩
        have h' : c1 = c ∧ [] :: rest' = gs' := by
          simpa [selectMin, hsel] using h
        obtain ⟨rfl, rfl⟩ := h'
        intro g' hg'
        rcases List.mem_cons.mp hg' with h1 | h1
        · subst h1; simp
        · exact ih _ _ hsel
            (fun g hg => hs g (List.mem_cons_of_mem _ hg)) g' h1
    | cons hd tl =>
      cases hsel : selectMin rest with
      | none =>
        have h' : hd = c ∧ tl :: rest = gs' := by
          simpa [selectMin, hsel] using h
        obtain ⟨rfl, rfl⟩ := h'
        intro g' hg'
        rcases List.mem_cons.mp hg' with h1 | h1
        · subst h1
          exact (List.pairwise_cons.mp (hs _ (List.mem_cons_self _ _))).2
        · exact hs g' (List.mem_cons_of_mem _ h1)
      | some r =>
        rcases r with ⟨c1, rest'⟩
        by_cases hle : hd.1 ≤ c1.1
        · have h' : hd = c ∧ tl :: rest = gs' := by
            simpa [selectMin, hsel, hle] using h
          obtain ⟨rfl, rfl⟩ := h'
          intro g' hg'
          rcases List.mem_cons.mp hg' with h1 | h1
          · subst h1
            exact (List.pairwise_cons.mp (hs _ (List.mem_cons_self _ _))).2
          · exact hs g' (List.mem_cons_of_mem _ h1)
        · have h' : c1 = c ∧ (hd :: tl) :: rest' = gs' := by
            simpa [selectMin, hsel, hle] using h
          obtain ⟨rfl, rfl⟩ := h'
          intro g' hg'
          rcases List.mem_cons.mp hg' with h1 | h1
          · subst h1; exact hs _ (List.mem_cons_self _ _)
          · exact ih _ _ hsel
              (fun g hg => hs g (List.mem_cons_of_mem _ hg)) g' h1

/-- The chosen event's position is minimal among every not-yet-emitted
event of every (position-sorted) group. -/
theorem selectMin_min (gs : List (List (Nat × Event)))
    (c : Nat × Event) (gs' : List (List (Nat × Event)))
    (h : selectMin gs = some (c, gs'))
    (hs : ∀ g ∈ gs, List.Pairwise (fun a b : Nat × Event => a.1 ≤ b.1) g) :
    ∀ g ∈ gs, ∀ x ∈ g, c.1 ≤ x.1 := by
  induction gs generalizing c gs' with
  | nil => simp [selectMin] at h
  | cons g0 rest ih =>
    cases g0 with
    | nil =>
      cases hsel : selectMin rest with
      | none => simp [selectMin, hsel] at h
      | some r =>
        rcases r with ⟨c1, rest'⟩
        have h' : c1 = c ∧ [] :: rest' = gs' := by
          simpa [selectMin, hsel] using h
        obtain ⟨rfl, rfl⟩ := h'
        intro g hg x hx
        rcases List.mem_cons.mp hg with h1 | h1
        · subst h1; simp at hx
        · exact ih _ _ hsel
            (fun g hg => hs g (List.mem_cons_of_mem _ hg)) g h1 x hx
    | cons hd tl =>
      cases hsel : selectMin rest with
      | none =>
        have h' : hd = c ∧ tl :: rest = gs' := by
          simpa [selectMin, hsel] using h
        obtain ⟨rfl, rfl⟩ := h'
        intro g hg x hx
        rcases List.mem_cons.mp hg with h1 | h1
        · subst h1
          rcases List.mem_cons.mp hx with h2 | h2
          · subst h2; exact le_refl _
          · exact (List.pairwise_cons.mp (hs _ (List.mem_cons_self _ _))).1 x h2
        · have := selectMin_eq_none rest hsel g h1
          subst this
          simp at hx
      | some r =>
        rcases r with ⟨c1, rest'⟩
        by_cases hle : hd.1 ≤ c1.1
        · have h' : hd = c ∧ tl :: rest = gs' := by
            simpa [selectMin, hsel, hle] using h
          obtain ⟨rfl, rfl⟩ := h'
          intro g hg x hx
          rcases List.mem_cons.mp hg with h1 | h1
          · subst h1
            rcases List.mem_cons.mp hx with h2 | h2
            · subst h2; exact le_refl _
            · exact (List.pairwise_cons.mp (hs _ (List.mem_cons_self _ _))).1 x h2
          · exact le_trans hle
              (ih _ _ hsel
                (fun g hg => hs g (List.mem_cons_of_mem _ hg)) g h1 x hx)
        · have h' : c1 = c ∧ (hd :: tl) :: rest' = gs' := by
            simpa [selectMin, hsel, hle] using h
          obtain ⟨rfl, rfl⟩ := h'
          have hlt := Nat.lt_of_not_le hle
          intro g hg x hx
          rcases List.mem_cons.mp hg with h1 | h1
          · subst h1
            rcases List.mem_cons.mp hx with h2 | h2
            · subst h2; exact le_of_lt hlt
            · exact le_trans (le_of_lt hlt)
                ((List.pairwise_cons.mp (hs _ (List.mem_cons_self _ _))).1 x h2)
          · exact ih _ _ hsel
              (fun g hg => hs g (List.mem_cons_of_mem _ hg)) g h1 x hx

/-- A clock-advance record is folded into the position accumulator. -/
theorem annotate_pt (c d : Nat) (rest : List Event) :
    annotate c (Event.advanceProcessingTime d :: rest) =
      annotate (c + d) rest := rfl

/-- Any other event is positioned at the current accumulator value. -/
theorem annotate_cons_non_pt (c : Nat) (e : Event) (rest : List Event)
    (he : isProcessingTimeEvent e = false) :
    annotate c (e :: rest) = (c, e) :: annotate c rest := by
  cases e with
  | addElements els tag => rfl
  | advanceWatermark w tag => rfl
  | advanceProcessingTime d => simp [isProcessingTimeEvent] at he

/-- Unfolding of one exhausted merge step. -/
theorem mergeAux_succ_none (fuel clock : Nat)
    (gs : List (List (Nat × Event))) (h : selectMin gs = none) :
    mergeAux (fuel + 1) clock gs = [] := by
  simp [mergeAux, h]

/-- Unfolding of one productive merge step. -/
theorem mergeAux_succ_some (fuel clock : Nat)
    (gs : List (List (Nat × Event))) (c : Nat × Event)
    (gs' : List (List (Nat × Event))) (h : selectMin gs = some (c, gs')) :
    mergeAux (fuel + 1) clock gs =
      (if clock < c.1 then [Event.advanceProcessingTime (c.1 - clock)] else [])
        ++ c.2 :: mergeAux fuel (max clock c.1) gs' := by
  simp [mergeAux, h]

/-- A collection of exhausted groups holds the empty multiset of events. -/
theorem groups_sum_of_nil (gs : List (List (Nat × Event)))
    (h : ∀ g ∈ gs, g = []) :
    (gs.map (fun g => Multiset.ofList g)).sum = 0 := by
  apply List.sum_eq_zero
  intro x hx
  rcases List.mem_map.mp hx with ⟨g, hg, rfl⟩
  rw [h g hg]
  rfl

/-- With no events left, every group is exhausted. -/
theorem totalLen_zero_all_nil (gs : List (List (Nat × Event)))
    (h : totalLen gs = 0) : ∀ g ∈ gs, g = [] := by
  intro g hg
  have h1 : g.length = 0 := by
    by_contra hne
    have hpos : 0 < g.length := Nat.pos_of_ne_zero hne
    have h2 : g.length ≤ totalLen gs :=
      List.single_le_sum (fun x _ => Nat.zero_le x) _
        (List.mem_map_of_mem List.length hg)
    omega
  exact List.length_eq_zero.mp h1

/-- The heart of C1: the merged output, re-positioned by accumulating its
own emitted clock advances, carries exactly the recorded events of all
groups at exactly their recorded processing-time positions — provided the
groups are position-sorted streams of positioned (non-clock) events lying
at or after the current clock, as produced by `annotate`. -/
theorem mergeAux_annotate_multiset (fuel : Nat) :
    ∀ (clock : Nat) (gs : List (List (Nat × Event))),
    totalLen gs ≤ fuel →
    (∀ g ∈ gs, List.Pairwise (fun a b : Nat × Event => a.1 ≤ b.1) g) →
    (∀ g ∈ gs, ∀ x ∈ g, clock ≤ x.1) →
    (∀ g ∈ gs, ∀ x ∈ g, isProcessingTimeEvent x.2 = false) →
    Multiset.ofList (annotate clock (mergeAux fuel clock gs)) =
      (gs.map (fun g => Multiset.ofList g)).sum := by
  induction fuel with
  | zero =>
    intro clock gs hlen _ _ _
    have hz : totalLen gs = 0 := Nat.le_zero.mp hlen
    rw [groups_sum_of_nil gs (totalLen_zero_all_nil gs hz)]
    rfl
  | succ fuel ih =>
    intro clock gs hlen hsort hlb hnpt
    cases hsel : selectMin gs with
    | none =>
      rw [mergeAux_succ_none fuel clock gs hsel,
        groups_sum_of_nil gs (selectMin_eq_none gs hsel)]
      rfl
    | some r =>
      rcases r with ⟨c, gs'⟩
      obtain ⟨g0, hg0, hcg0⟩ := selectMin_chosen_mem gs c gs' hsel
      have hclock_le : clock ≤ c.1 := hlb g0 hg0 c hcg0
      have hcnpt : isProcessingTimeEvent c.2 = false := hnpt g0 hg0 c hcg0
      have hlen' : totalLen gs' ≤ fuel := by
        have := selectMin_totalLen gs c gs' hsel
        omega
      have hsort' := selectMin_sorted gs c gs' hsel hsort
      have hmin := selectMin_min gs c gs' hsel hsort
      have hlb' : ∀ g ∈ gs', ∀ x ∈ g, c.1 ≤ x.1 := by
        intro g hg x hx
        obtain ⟨g2, hg2, hxg2⟩ := selectMin_mem_of_mem gs c gs' hsel g hg x hx
        exact hmin g2 hg2 x hxg2
      have hnpt' : ∀ g ∈ gs', ∀ x ∈ g, isProcessingTimeEvent x.2 = false := by
        intro g hg x hx
        obtain ⟨g2, hg2, hxg2⟩ := selectMin_mem_of_mem gs c gs' hsel g hg x hx
        exact hnpt g2 hg2 x hxg2
      rw [selectMin_multiset gs c gs' hsel,
        mergeAux_succ_some fuel clock gs c gs' hsel]
      by_cases hlt : clock < c.1
      · have hmax : max clock c.1 = c.1 := Nat.max_eq_right (le_of_lt hlt)
        rw [if_pos hlt, List.singleton_append, annotate_pt,
          Nat.add_sub_cancel' (le_of_lt hlt),
          annotate_cons_non_pt c.1 c.2 _ hcnpt, hmax, ← Multiset.cons_coe,
          ih c.1 gs' hlen' hsort' hlb' hnpt', Prod.mk.eta]
      · have hclock_ge : c.1 ≤ clock := Nat.le_of_not_lt hlt
        have heq : clock = c.1 := Nat.le_antisymm hclock_le hclock_ge
        have hmax : max clock c.1 = clock := Nat.max_eq_left hclock_ge
        have hlb2 : ∀ g ∈ gs', ∀ x ∈ g, clock ≤ x.1 := by
          intro g hg x hx
          exact le_trans (le_of_eq heq) (hlb' g hg x hx)
        rw [if_neg hlt, List.nil_append,
          annotate_cons_non_pt clock c.2 _ hcnpt, hmax, ← Multiset.cons_coe,
          ih clock gs' hlen' hsort' hlb2 hnpt', heq, Prod.mk.eta]

/-- Well-formed clock usage of an event stream: every shared-clock advance
carries a positive delta and is immediately followed by a non-clock event —
in particular clock advances are never adjacent (they are coalesced) and
never trailing. -/
def coalescedOk : List Event → Bool
  | [] => true
  | Event.advanceProcessingTime d :: rest =>
    decide (0 < d) &&
      (match rest with
        | [] => false
        | e :: _ => !isProcessingTimeEvent e) &&
      coalescedOk rest
  | _ :: rest => coalescedOk rest

/-- A non-clock event never breaks coalescing. -/
theorem coalescedOk_cons_non_pt (e : Event) (rest : List Event)
    (he : isProcessingTimeEvent e = false) :
    coalescedOk (e :: rest) = coalescedOk rest := by
  cases e with
  | addElements els tag => rfl
  | advanceWatermark w tag => rfl
  | advanceProcessingTime d => simp [isProcessingTimeEvent] at he

/-- The merge emits well-coalesced clock advances: positive deltas, each
immediately before the event it reaches, never adjacent, never trailing. -/
theorem mergeAux_coalesced (fuel : Nat) :
    ∀ (clock : Nat) (gs : List (List (Nat × Event))),
    (∀ g ∈ gs, ∀ x ∈ g, isProcessingTimeEvent x.2 = false) →
    coalescedOk (mergeAux fuel clock gs) = true := by
  induction fuel with
  | zero => intro clock gs _; rfl
  | succ fuel ih =>
    intro clock gs hnpt
    cases hsel : selectMin gs with
    | none => rw [mergeAux_succ_none fuel clock gs hsel]; rfl
    | some r =>
      rcases r with ⟨c, gs'⟩
      obtain ⟨g0, hg0, hcg0⟩ := selectMin_chosen_mem gs c gs' hsel
      have hcnpt : isProcessingTimeEvent c.2 = false := hnpt g0 hg0 c hcg0
      have hnpt' : ∀ g ∈ gs', ∀ x ∈ g, isProcessingTimeEvent x.2 = false := by
        intro g hg x hx
        obtain ⟨g2, hg2, hxg2⟩ := selectMin_mem_of_mem gs c gs' hsel g hg x hx
        exact hnpt g2 hg2 x hxg2
      rw [mergeAux_succ_some fuel clock gs c gs' hsel]
      by_cases hlt : clock < c.1
      · rw [if_pos hlt, List.singleton_append]
        cases hc2 : c.2 with
        | advanceProcessingTime d =>
          rw [hc2] at hcnpt
          simp [isProcessingTimeEvent] at hcnpt
        | addElements els tag =>
          have hd : 0 < c.1 - clock := Nat.sub_pos_of_lt hlt
          simp [coalescedOk, isProcessingTimeEvent, hd,
            ih (max clock c.1) gs' hnpt']
        | advanceWatermark w tag =>
          have hd : 0 < c.1 - clock := Nat.sub_pos_of_lt hlt
          simp [coalescedOk, isProcessingTimeEvent, hd,
            ih (max clock c.1) gs' hnpt']
      · rw [if_neg hlt, List.nil_append,
          coalescedOk_cons_non_pt c.2 _ hcnpt]
        exact ih (max clock c.1) gs' hnpt'

/-- C1: for every collection of read groups, the merged output of
`read_multiple` re-emits exactly the recorded (non-clock) events of all
groups, each at exactly its recorded processing-time position (the
multiset of the output's positioned events equals the union of the groups'
positioned events); the output's positions are non-decreasing; and the
shared clock moves only through coalesced `AdvanceProcessingTime` events
carrying a positive delta, each emitted immediately before the event whose
position required the move. -/
theorem read_multiple_emits_in_recorded_order (groupLogs : List (List Event)) :
    Multiset.ofList (annotate 0 (readMultiple groupLogs)) =
        (groupLogs.map (fun g => Multiset.ofList (annotate 0 g))).sum
      ∧ List.Pairwise (fun a b : Nat × Event => a.1 ≤ b.1)
          (annotate 0 (readMultiple groupLogs))
      ∧ coalescedOk (readMultiple groupLogs) = true := by
  have hsort : ∀ g ∈ groupLogs.map (annotate 0),
      List.Pairwise (fun a b : Nat × Event => a.1 ≤ b.1) g := by
    intro g hg
    rcases List.mem_map.mp hg with ⟨l, _, rfl⟩
    exact annotate_pairwise l 0
  have hlb : ∀ g ∈ groupLogs.map (annotate 0), ∀ x ∈ g, 0 ≤ x.1 :=
    fun g _ x _ => Nat.zero_le x.1
  have hnpt : ∀ g ∈ groupLogs.map (annotate 0), ∀ x ∈ g,
      isProcessingTimeEvent x.2 = false := by
    intro g hg x hx
    rcases List.mem_map.mp hg with ⟨l, _, rfl⟩
    exact annotate_no_pt l 0 x hx
  refine ⟨?_, annotate_pairwise _ 0, ?_⟩
  · rw [readMultiple,
      mergeAux_annotate_multiset _ 0 _ (le_refl _) hsort hlb hnpt,
      List.map_map]
    rfl
  · rw [readMultiple]
    exact mergeAux_coalesced _ 0 _ hnpt
